import Mathlib

/-!
Shallow embedding of the vault indexing core of the Marino-obsessed
repository (src/vault/parser.py, src/vault/note.py, src/vault/index.py,
src/vault/todos.py), together with proofs of the specification claims.

Strings are modelled as `List Char`.  The external YAML library
(`yaml.safe_load`) is not repository code; it is abstracted as a parameter
`Y : Str → Option Frontmatter`, where `none` models a raised `YAMLError`.
File-system interaction is modelled by passing the directory listing
(path, contents) explicitly; `date.today()` is passed as a parameter.
The newline convention is modelled as `'\n'`.
-/

namespace Vault

abbrev Str := List Char

/-- Convert a Lean string literal to the `List Char` representation. -/
def chars (s : String) : Str := s.data

/-- Python's `\s` character class (ASCII fragment, as used by `str.strip()`
and the `re` patterns in the source). -/
def isPySpace (c : Char) : Bool :=
  c = ' ' || c = '\t' || c = '\n' || c = '\r' || c = '\x0b' || c = '\x0c'

/-- Python's `\w` character class (ASCII fragment). -/
def isWordChar (c : Char) : Bool :=
  c.isAlpha || c.isDigit || c = '_'

/-- Strip characters satisfying `p` from the right end. -/
def stripRight (p : Char → Bool) (s : Str) : Str :=
  (s.reverse.dropWhile p).reverse

/-- Python `str.strip()`: whitespace removed from both ends. -/
def pyStrip (s : Str) : Str :=
  stripRight isPySpace (s.dropWhile isPySpace)

/-- Python `str.strip(set)`: characters of `set` removed from both ends. -/
def pyStripChars (set : List Char) (s : Str) : Str :=
  stripRight (fun c => set.contains c) (s.dropWhile (fun c => set.contains c))

/-- Python `str.splitlines()` restricted to the `'\n'` separator:
split on newlines, a trailing newline producing no empty final piece. -/
def splitlinesGo : Str → Str → List Str
  | acc, [] => [acc.reverse]
  | acc, c :: rest =>
    if c = '\n' then
      if rest = [] then [acc.reverse] else acc.reverse :: splitlinesGo [] rest
    else splitlinesGo (c :: acc) rest

def splitlines (s : Str) : List Str :=
  match s with
  | [] => []
  | _ => splitlinesGo [] s

/-- Python `str.splitlines(keepends=True)` restricted to `'\n'`. -/
def splitKeepGo : Str → Str → List Str
  | acc, [] => [acc.reverse]
  | acc, c :: rest =>
    if c = '\n' then
      if rest = [] then [(c :: acc).reverse]
      else (c :: acc).reverse :: splitKeepGo [] rest
    else splitKeepGo (c :: acc) rest

def splitKeep (s : Str) : List Str :=
  match s with
  | [] => []
  | _ => splitKeepGo [] s

/-- `"".join(lines)`. -/
def joinStr (ls : List Str) : Str := ls.foldr (· ++ ·) []

/-- Python `str.split(sep)` for a single-character separator
(every occurrence splits, empty pieces kept). -/
def splitOnChar (sep : Char) : Str → List Str
  | [] => [[]]
  | c :: rest =>
    if c = sep then [] :: splitOnChar sep rest
    else
      match splitOnChar sep rest with
      | [] => [[c]]
      | p :: ps => (c :: p) :: ps

/-- Association lists model Python `dict` (insertion-ordered). -/
abbrev AList (V : Type) := List (Str × V)

def lookup {V : Type} (k : Str) : AList V → Option V
  | [] => none
  | (k', v) :: rest => if k' = k then some v else lookup k rest

/-- Python `d[k] = v`: replace in place when the key exists (keeping its
position), append a new entry otherwise. -/
def setKey {V : Type} (k : Str) (v : V) : AList V → AList V
  | [] => [(k, v)]
  | (k', v') :: rest =>
    if k' = k then (k', v) :: rest else (k', v') :: setKey k v rest

def lookupD {V : Type} (k : Str) (m : AList V) (d : V) : V :=
  (lookup k m).getD d

/-- First-occurrence de-duplication (`dict.fromkeys` / seen-set loop). -/
def dedupGo (seen : List Str) : List Str → List Str
  | [] => []
  | x :: rest =>
    if x ∈ seen then dedupGo seen rest else x :: dedupGo (x :: seen) rest

def dedup (xs : List Str) : List Str := dedupGo [] xs

/-! ## parser.py -/

/-- A front-matter value: the YAML values the code inspects are strings and
lists of strings (`tags`, `title`); other YAML shapes are out of scope. -/
inductive FMValue
  | str (s : Str)
  | list (xs : List Str)
deriving DecidableEq

abbrev Frontmatter := AList FMValue

/-- The abstracted `yaml.safe_load`; `none` models a raised `YAMLError`. -/
abbrev YamlParser := Str → Option Frontmatter

/-- `[ \t]*` followed by `\n`: returns the remainder after the newline. -/
def stripWsNl (s : Str) : Option Str :=
  match s.dropWhile (fun c => c = ' ' || c = '\t') with
  | '\n' :: r => some r
  | _ => none

/-- Attempt `---[ \t]*\n` at the current position (just after a `'\n'`). -/
def fmCloseAt : Str → Option Str
  | '-' :: '-' :: '-' :: r => stripWsNl r
  | _ => none

/-- Non-greedy scan of `(.*?)\n---[ \t]*\n`: returns the minimal group and
the remainder after the closing delimiter. -/
def fmFindClose : Str → Str → Option (Str × Str)
  | _, [] => none
  | acc, c :: rest =>
    if c = '\n' then
      match fmCloseAt rest with
      | some r' => some (acc.reverse, r')
      | none => fmFindClose (c :: acc) rest
    else fmFindClose (c :: acc) rest

/-- `_FRONTMATTER_RE.match(content)` for
`^---[ \t]*\n(.*?)\n---[ \t]*\n` with `DOTALL`: returns
`(group 1, remainder after the match)` on success. -/
def frontmatterMatch (content : Str) : Option (Str × Str) :=
  match content with
  | '-' :: '-' :: '-' :: r =>
    match stripWsNl r with
    | some r1 => fmFindClose [] r1
    | none => none
  | _ => none

/-- `parse_frontmatter`: split the YAML front matter from the body.  The
`Y g |>.getD []` models `yaml.safe_load(...) or {}` with `YAMLError`
caught and degraded to `{}`. -/
def parse_frontmatter (Y : YamlParser) (content : Str) : Frontmatter × Str :=
  match frontmatterMatch content with
  | none => ([], content)
  | some (g, rest) => ((Y g).getD [], rest)

/-- One attempt of `_WIKILINK_RE` = `\[\[([^\]|#]+)(?:[|#][^\]]*)?\]\]`
at the current position: `(group 1, remainder after the match)`. -/
def wikiMatchAt (s : Str) : Option (Str × Str) :=
  match s with
  | '[' :: '[' :: rest =>
    let g := rest.takeWhile (fun c => !(c = ']' || c = '|' || c = '#'))
    if g = [] then none
    else
      match rest.drop g.length with
      | ']' :: ']' :: r' => some (g, r')
      | c :: r2 =>
        if c = '|' || c = '#' then
          match r2.drop (r2.takeWhile (fun c => c ≠ ']')).length with
          | ']' :: ']' :: r' => some (g, r')
          | _ => none
        else none
      | _ => none
  | _ => none

/-- `finditer` scan for `_WIKILINK_RE`: left to right, non-overlapping.
The first argument counts characters still inside the previous match. -/
def wikiGo : Nat → Str → List Str
  | _, [] => []
  | skip + 1, _ :: rest => wikiGo skip rest
  | 0, c :: rest =>
    match wikiMatchAt (c :: rest) with
    | some (g, r') => g :: wikiGo (rest.length - r'.length) rest
    | none => wikiGo 0 rest

/-- `parse_wikilinks`: all `[[WikiLink]]` targets, stripped, de-duplicated
by first occurrence. -/
def parse_wikilinks (text : Str) : List Str :=
  dedup ((wikiGo 0 text).map pyStrip)

def tagChar (c : Char) : Bool := isWordChar c || c = '/' || c = '-'

/-- The negative lookbehind class of `_TAG_RE`: `` (?<![`\w/#]) ``. -/
def tagExcl (c : Char) : Bool := c = '`' || isWordChar c || c = '/' || c = '#'

def tagPrevOk : Option Char → Bool
  | none => true
  | some p => !tagExcl p

/-- `finditer` scan for `_TAG_RE`: a `#` not preceded by a backtick, word
character, slash or `#`, followed by one or more word, slash or hyphen
characters (greedy).  Arguments: previous character (for the lookbehind),
characters still inside the previous match, remaining input. -/
def tagGo : Option Char → Nat → Str → List Str
  | _, _, [] => []
  | _, skip + 1, c :: rest => tagGo (some c) skip rest
  | prev, 0, c :: rest =>
    if c = '#' && tagPrevOk prev then
      let g := rest.takeWhile tagChar
      if g = [] then tagGo (some '#') 0 rest
      else g :: tagGo (some '#') g.length rest
    else tagGo (some c) 0 rest

/-- `parse_tags`: all inline `#tag` values, de-duplicated, ordered. -/
def parse_tags (text : Str) : List Str :=
  dedup (tagGo none 0 text)

/-! ## note.py and parse_note -/

/-- `pathlib.PurePath.name`: the final path component. -/
def pathName (p : Str) : Str :=
  ((splitOnChar '/' p).filter (fun c => c ≠ [] ∧ c ≠ ['.'])).getLastD []

/-- `pathlib.PurePath.stem`: the final component minus its last suffix
(a dot strictly inside the name, not at position 0 or at the very end). -/
def pathStem (p : Str) : Str :=
  let name := pathName p
  let t := (name.reverse.takeWhile (fun c => c ≠ '.')).length
  if t < name.length ∧ 0 < t ∧ t + 1 < name.length then
    name.take (name.length - t - 1)
  else name

/-- `Note` (note.py): a single markdown note; `slug` is derived from the
file path's stem. -/
structure Note where
  path : Str
  title : Str
  body : Str
  tags : List Str
  links : List Str
  frontmatter : Frontmatter
deriving DecidableEq

def Note.slug (n : Note) : Str := pathStem n.path

/-- `frontmatter.get("tags") or []`, accepting a list or a comma-separated
string (split, stripped, empty pieces dropped). -/
def fmTags (fm : Frontmatter) : List Str :=
  match lookup (chars "tags") fm with
  | none => []
  | some (.list xs) => xs
  | some (.str s) =>
    if s = [] then []
    else ((splitOnChar ',' s).map pyStrip).filter (fun t => t ≠ [])

/-- `frontmatter.get("title") or path.stem`. -/
def fmTitle (fm : Frontmatter) (path : Str) : Str :=
  match lookup (chars "title") fm with
  | some (.str s) => if s = [] then pathStem path else s
  | _ => pathStem path

/-- `parse_note`: read a file's content into a fully populated `Note`.
The file content is passed explicitly (`path.read_text`). -/
def parse_note (Y : YamlParser) (path : Str) (content : Str) : Note :=
  let fb := parse_frontmatter Y content
  let body := fb.2
  let links := parse_wikilinks body
  let inline_tags := parse_tags body
  let all_tags := dedup (fmTags fb.1 ++ inline_tags)
  { path := path, title := fmTitle fb.1 path, body := body,
    tags := all_tags, links := links, frontmatter := fb.1 }

/-! ## index.py -/

/-- Lexicographic order on strings by character code (Python `sorted`). -/
def strLt : Str → Str → Bool
  | [], [] => false
  | [], _ :: _ => true
  | _ :: _, [] => false
  | a :: as, b :: bs => if a < b then true else if b < a then false else strLt as bs

def insertPath (x : Str × Str) : List (Str × Str) → List (Str × Str)
  | [] => [x]
  | y :: rest => if strLt x.1 y.1 then x :: y :: rest else y :: insertPath x rest

/-- `sorted(vault_dir.glob("**/*.md"))`: the matching files in
lexicographic path order. -/
def sortFiles : List (Str × Str) → List (Str × Str)
  | [] => []
  | x :: rest => insertPath x (sortFiles rest)

def globMd (files : List (Str × Str)) : List (Str × Str) :=
  sortFiles (files.filter (fun f => (chars ".md").isSuffixOf f.1))

/-- The in-memory state of a `VaultIndex`. -/
structure VaultIndex where
  notes : AList Note
  backlinks : AList (List Str)
  tags : AList (List Str)
deriving DecidableEq

/-- The note-scanning loop of `build()`:
`self.notes = {}`, then `self.notes[note.slug] = note` per file. -/
def buildNotes (Y : YamlParser) (files : List (Str × Str)) : AList Note :=
  (globMd files).foldl
    (fun acc f => setKey (parse_note Y f.1 f.2).slug (parse_note Y f.1 f.2) acc) []

/-- `_normalise_link`: strip path / markdown extension from a wikilink
target. -/
def _normalise_link (link : Str) : Str :=
  if '/' ∈ link ∨ (chars ".md").isSuffixOf link then pathStem link else link

/-- `setdefault(target, [])` followed by append-if-absent. -/
def updAppend (m : AList (List Str)) (target slug : Str) : AList (List Str) :=
  match lookup target m with
  | none => m ++ [(target, [slug])]
  | some xs => if slug ∈ xs then m else setKey target (xs ++ [slug]) m

/-- The inner loop of `_build_backlinks` over one note's links. -/
def addLinks (slug : Str) (links : List Str) (m : AList (List Str)) :
    AList (List Str) :=
  links.foldl (fun m l => updAppend m (_normalise_link l) slug) m

/-- `_build_backlinks`: start from `{slug: [] for slug in notes}`, then for
every note and link append the source slug under the normalised target. -/
def _build_backlinks (notes : AList Note) : AList (List Str) :=
  notes.foldl (fun m p => addLinks p.1 p.2.links m)
    (notes.map (fun p => (p.1, ([] : List Str))))

/-- The inner loop of `_build_tags` over one note's tags. -/
def addTags (slug : Str) (tags : List Str) (m : AList (List Str)) :
    AList (List Str) :=
  tags.foldl (fun m t => updAppend m t slug) m

/-- `_build_tags`: for every note and tag append the slug under the tag. -/
def _build_tags (notes : AList Note) : AList (List Str) :=
  notes.foldl (fun m p => addTags p.1 p.2.tags m) []

/-- The state produced by one call of `build()` on a given directory
listing: all three structures are recomputed from scratch. -/
def buildIndex (Y : YamlParser) (files : List (Str × Str)) : VaultIndex :=
  let notes := buildNotes Y files
  { notes := notes, backlinks := _build_backlinks notes,
    tags := _build_tags notes }

/-- `build()` as a state transformer: the previous in-memory state `prev`
is discarded wholesale (`self.notes = {}`; `self.backlinks`/`self.tags`
reassigned). -/
def build (_prev : VaultIndex) (Y : YamlParser) (files : List (Str × Str)) :
    VaultIndex :=
  buildIndex Y files

/-- `edges()`: `(source_slug, normalised target)` per wikilink, in note
iteration order, without de-duplication. -/
def edges (idx : VaultIndex) : List (Str × Str) :=
  idx.notes.foldl
    (fun acc p => acc ++ p.2.links.map (fun l => (p.1, _normalise_link l))) []

/-! ## todos.py -/

/-- `TodoItem` (todos.py). -/
structure TodoItem where
  source_slug : Str
  line_no : Nat
  description : Str
  raw_line : Str
  resolved : Bool := false
deriving DecidableEq

/-- `TodoIndex`: the scanner's result, an ordered list of items. -/
structure TodoIndex where
  items : List TodoItem
deriving DecidableEq

def isTChar (c : Char) : Bool := c = 'T' || c = 't'

def isKChar (c : Char) : Bool := c = 'K' || c = 'k'

/-- `_SKIP_RE.match(line)`: ``^\s*`` then a code fence of three backticks
or three tildes, or an HTML comment opener. -/
def skipMatch (line : Str) : Bool :=
  let r := line.dropWhile isPySpace
  (chars "```").isPrefixOf r || (chars "~~~").isPrefixOf r ||
    (chars "<!--").isPrefixOf r

/-- `_TASK_TK_RE.match(s)` for
`^[-*]\s+\[\s*\]\s+TK(?::\s*(.+))?$` (case-insensitive): `some g` on a
match, where `g` is the optional group 1. -/
def taskMatch (s : Str) : Option (Option Str) :=
  match s with
  | c :: rest =>
    if c = '-' || c = '*' then
      let r1 := rest.dropWhile isPySpace
      if r1.length = rest.length then none
      else
        match r1 with
        | '[' :: r2 =>
          match r2.dropWhile isPySpace with
          | ']' :: r4 =>
            let r5 := r4.dropWhile isPySpace
            if r5.length = r4.length then none
            else
              match r5 with
              | t :: k :: r6 =>
                if isTChar t && isKChar k then
                  match r6 with
                  | [] => some none
                  | ':' :: r7 =>
                    if r7 = [] then none
                    else
                      let d := r7.dropWhile isPySpace
                      some (some (if d = [] then [r7.getLastD ' '] else d))
                  | _ => none
                else none
              | _ => none
          | _ => none
        | _ => none
    else none
  | [] => none

/-- `_COLON_TK_RE.match(s)` for `^\s*TK:\s*(.+)$` (case-insensitive):
group 1 on a match. -/
def colonMatch (s : Str) : Option Str :=
  match s.dropWhile isPySpace with
  | t :: k :: c :: rest =>
    if isTChar t && isKChar k && c = ':' then
      if rest = [] then none
      else
        let d := rest.dropWhile isPySpace
        some (if d = [] then [rest.getLastD ' '] else d)
    else none
  | _ => none

def nonWordOpt : Option Char → Bool
  | none => true
  | some c => !isWordChar c

def nonWordHead : Str → Bool
  | [] => true
  | c :: _ => !isWordChar c

/-- Does `\bTK\b` (case-insensitive) match starting at the current
position, given the previous character? -/
def tkAt (prev : Option Char) : Str → Bool
  | t :: k :: rest =>
    isTChar t && isKChar k && nonWordOpt prev && nonWordHead rest
  | _ => false

/-- `_BARE_TK_RE.search(s)`: `\bTK\b` anywhere in `s`. -/
def bareGo : Option Char → Str → Bool
  | _, [] => false
  | prev, c :: rest => tkAt prev (c :: rest) || bareGo (some c) rest

def bareSearch (s : Str) : Bool := bareGo none s

/-- Python `str.replace("TK", "")`: delete every (case-sensitive,
non-overlapping, leftmost-first) occurrence of `TK`. -/
def replaceTK : Str → Str
  | 'T' :: 'K' :: rest => replaceTK rest
  | c :: rest => c :: replaceTK rest
  | [] => []

/-- The bare-form description:
`stripped.replace("TK", "").strip(" -:").strip() or stripped`. -/
def bareDesc (stripped : Str) : Str :=
  let d := pyStrip (pyStripChars [' ', '-', ':'] (replaceTK stripped))
  if d = [] then stripped else d

/-- The per-line classification of `scan_todos` (the pattern cascade run
on a non-code line): the `TodoItem` produced for the line, if any. -/
def scanLine (slug : Str) (line_no : Nat) (line : Str) : Option TodoItem :=
  let stripped := pyStrip line
  match taskMatch stripped with
  | some g =>
    let desc :=
      match g with
      | none => stripped
      | some d => if pyStrip d = [] then stripped else pyStrip d
    some ⟨slug, line_no, desc, line, false⟩
  | none =>
    match colonMatch stripped with
    | some d => some ⟨slug, line_no, pyStrip d, line, false⟩
    | none =>
      if bareSearch stripped then
        some ⟨slug, line_no, bareDesc stripped, line, false⟩
      else none

/-- The per-note line loop of `scan_todos`: `in_code_block` toggling and
1-based line numbering over the body's lines. -/
def scanGo (slug : Str) : Bool → Nat → List Str → List TodoItem
  | _, _, [] => []
  | inCode, n, line :: rest =>
    if skipMatch line then scanGo slug (!inCode) (n + 1) rest
    else if inCode then scanGo slug inCode (n + 1) rest
    else
      match scanLine slug n line with
      | some it => it :: scanGo slug inCode (n + 1) rest
      | none => scanGo slug inCode (n + 1) rest

def scanBody (slug : Str) (body : Str) : List TodoItem :=
  scanGo slug false 1 (splitlines body)

/-- `scan_todos`: scan every note of the index in iteration order. -/
def scan_todos (idx : VaultIndex) : TodoIndex :=
  ⟨idx.notes.foldl (fun acc p => acc ++ scanBody p.1 p.2.body) []⟩

/-- The fixed front-matter header `append_todo` writes when `todos.md`
does not exist. -/
def todosHeader : Str :=
  chars "---\ntitle: Todos\ntags: [todos, meta]\n---\n\n# Todos\n\n_Auto-generated by the vault TK quick-capture shorthand._\n\n"

/-- The single line `append_todo` appends. -/
def todoLine (description source_slug today : Str) : Str :=
  chars "- [ ] TK: " ++ description ++
    (if source_slug = [] then []
     else chars " (from [[" ++ source_slug ++ chars "]])") ++
    chars " — " ++ today ++ ['\n']

/-- `append_todo`: the new content of `todos.md`.  `existing` is the
current file content (`none` when the file does not exist); `today` is
`date.today().isoformat()`. -/
def append_todo (existing : Option Str) (description source_slug today : Str) :
    Str :=
  (match existing with
   | none => todosHeader
   | some c => c) ++ todoLine description source_slug today

/-- `re.sub(r"\[\s*\]", "[x]", line, count=1)`: replace the leftmost
`[`-whitespace-`]` occurrence. -/
def subCheckbox : Str → Str
  | [] => []
  | c :: rest =>
    if c = '[' then
      match rest.dropWhile isPySpace with
      | ']' :: r => '[' :: 'x' :: ']' :: r
      | _ => '[' :: subCheckbox rest
    else c :: subCheckbox rest

/-- The outcome of `resolve_todo`: the content written back (`none` when
no write happened) and the item afterwards. -/
structure ResolveResult where
  written : Option Str
  item : TodoItem
deriving DecidableEq

/-- `resolve_todo`: re-open the source note, replace the first unchecked
checkbox on the stored line, write back, and set `resolved`.  A missing
file (`file = none`) or an out-of-range line index is a silent no-op. -/
def resolve_todo (file : Option Str) (item : TodoItem) : ResolveResult :=
  match file with
  | none => ⟨none, item⟩
  | some content =>
    let lines := splitKeep content
    let idx : Int := (item.line_no : Int) - 1
    if 0 ≤ idx ∧ idx < lines.length then
      ⟨some (joinStr (lines.set idx.toNat (subCheckbox (lines.getD idx.toNat [])))),
        { item with resolved := true }⟩
    else ⟨none, item⟩

/-! ## Spec-side predicates (stated from the specification's words) -/

/-- A character allowed on a front-matter delimiter line after `---`. -/
def IsWsChar (c : Char) : Prop := c = ' ' ∨ c = '\t'

/-- The specification's shape of a recognised front-matter block: the
content begins at position 0 with a three-hyphen delimiter line, a block,
and a closing three-hyphen delimiter line. -/
def HasFMShape (content : Str) : Prop :=
  ∃ w₁ blk w₂ rest, (∀ c ∈ w₁, IsWsChar c) ∧ (∀ c ∈ w₂, IsWsChar c) ∧
    content = chars "---" ++ w₁ ++ '\n' :: (blk ++ '\n' :: (chars "---" ++ w₂ ++ '\n' :: rest))

/-- An unchecked checkbox `[ ]` (any run of whitespace between the
brackets) occurring somewhere in a line. -/
def HasCheckbox (s : Str) : Prop :=
  ∃ u w v, (∀ c ∈ w, isPySpace c) ∧ s = u ++ '[' :: (w ++ ']' :: v)

/-! ## Helper lemmas -/

theorem joinStr_nil : joinStr [] = [] := rfl

theorem joinStr_cons (a : Str) (ls : List Str) :
    joinStr (a :: ls) = a ++ joinStr ls := rfl

theorem joinStr_splitKeepGo (s : Str) : ∀ acc : Str,
    joinStr (splitKeepGo acc s) = acc.reverse ++ s := by
  induction s with
  | nil => intro acc; simp [splitKeepGo, joinStr_cons, joinStr_nil]
  | cons c rest ih =>
    intro acc
    by_cases hc : c = '\n'
    · by_cases hr : rest = []
      · simp [splitKeepGo, hc, hr, joinStr_cons, joinStr_nil]
      · simp [splitKeepGo, hc, hr, joinStr_cons, ih]
    · simp [splitKeepGo, hc, joinStr_cons, ih]

theorem joinStr_splitKeep (c : Str) : joinStr (splitKeep c) = c := by
  cases c with
  | nil => rfl
  | cons a rest => simpa using joinStr_splitKeepGo (a :: rest) []

theorem set_getD_self {α : Type} (l : List α) (i : Nat) (d : α)
    (h : i < l.length) : l.set i (l.getD i d) = l := by
  induction l generalizing i with
  | nil => simp at h
  | cons a rest ih =>
    cases i with
    | zero => rfl
    | succ j =>
      have := ih j (by simpa using h)
      simpa [List.set, List.getD] using this

theorem subCheckbox_of_not_hasCheckbox (s : Str) (h : ¬ HasCheckbox s) :
    subCheckbox s = s := by
  induction s with
  | nil => rfl
  | cons c rest ih =>
    have hrest : ¬ HasCheckbox rest := by
      rintro ⟨u, w, v, hw, hs⟩
      exact h ⟨c :: u, w, v, hw, by simp [hs]⟩
    rw [subCheckbox]
    by_cases hc : c = '['
    · simp only [if_pos hc]
      split
      · next r heq =>
        exfalso
        refine h ⟨[], rest.takeWhile isPySpace, r,
          fun x hx => List.mem_takeWhile_imp hx, ?_⟩
        have hta := List.takeWhile_append_dropWhile (p := isPySpace) (l := rest)
        subst hc
        simp only [List.nil_append, List.cons.injEq, true_and]
        nth_rewrite 1 [← hta]
        rw [heq]
      · rw [ih hrest, hc]
    · simp only [if_neg hc]
      rw [ih hrest]

theorem edges_foldl_acc (notes : AList Note) (acc : List (Str × Str)) :
    notes.foldl (fun acc p => acc ++ p.2.links.map (fun l => (p.1, _normalise_link l))) acc
      = acc ++ notes.flatMap (fun p => p.2.links.map (fun l => (p.1, _normalise_link l))) := by
  induction notes generalizing acc with
  | nil => simp
  | cons p rest ih => simp [ih]

theorem not_hasCheckbox_of_no_bracket (s : Str) (h : '[' ∉ s) :
    ¬ HasCheckbox s := by
  rintro ⟨u, w, v, _, hs⟩
  exact h (by rw [hs]; simp)

theorem stripWsNl_sound {s r : Str} (h : stripWsNl s = some r) :
    ∃ w, (∀ c ∈ w, IsWsChar c) ∧ s = w ++ '\n' :: r := by
  unfold stripWsNl at h
  split at h
  · next r' heq =>
    cases h
    refine ⟨s.takeWhile (fun c => c = ' ' || c = '\t'), fun c hc => ?_, ?_⟩
    · have := List.mem_takeWhile_imp hc
      simpa [IsWsChar] using this
    · conv_lhs => rw [← List.takeWhile_append_dropWhile
        (p := fun c => c = ' ' || c = '\t') (l := s)]
      rw [heq]
  · exact absurd h (by simp)

theorem stripWsNl_complete {w : Str} (hw : ∀ c ∈ w, IsWsChar c) (r : Str) :
    stripWsNl (w ++ '\n' :: r) = some r := by
  have hdrop : (w ++ '\n' :: r).dropWhile (fun c => c = ' ' || c = '\t') =
      '\n' :: r := by
    induction w with
    | nil => simp [List.dropWhile]
    | cons c rest ih =>
      have hc : IsWsChar c := hw c (by simp)
      have : (decide (c = ' ') || decide (c = '\t')) = true := by
        rcases hc with h | h <;> simp [h]
      simpa [List.dropWhile, this] using ih (fun c hc => hw c (by simp [hc]))
  simp [stripWsNl, hdrop]

theorem fmCloseAt_sound {s r : Str} (h : fmCloseAt s = some r) :
    ∃ w, (∀ c ∈ w, IsWsChar c) ∧ s = chars "---" ++ w ++ '\n' :: r := by
  unfold fmCloseAt at h
  split at h
  · next r2 =>
    obtain ⟨w, hw, heq⟩ := stripWsNl_sound h
    exact ⟨w, hw, by simp [chars, heq]⟩
  · exact absurd h (by simp)

theorem fmFindClose_sound {s acc g r : Str}
    (h : fmFindClose acc s = some (g, r)) :
    ∃ a w, g = acc.reverse ++ a ∧ (∀ c ∈ w, IsWsChar c) ∧
      s = a ++ '\n' :: (chars "---" ++ w ++ '\n' :: r) := by
  induction s generalizing acc with
  | nil => exact absurd h (by simp [fmFindClose])
  | cons c rest ih =>
    rw [fmFindClose] at h
    by_cases hc : c = '\n'
    · rw [if_pos hc] at h
      cases hclose : fmCloseAt rest with
      | some r' =>
        rw [hclose] at h
        cases h
        obtain ⟨w, hw, heq⟩ := fmCloseAt_sound hclose
        exact ⟨[], w, by simp, hw, by simp [hc, heq]⟩
      | none =>
        rw [hclose] at h
        obtain ⟨a, w, hg, hw, heq⟩ := ih h
        refine ⟨c :: a, w, ?_, hw, by simp [heq]⟩
        simpa using hg
    · rw [if_neg hc] at h
      obtain ⟨a, w, hg, hw, heq⟩ := ih h
      refine ⟨c :: a, w, ?_, hw, by simp [heq]⟩
      simpa using hg

theorem fmFindClose_complete {w : Str} (hw : ∀ c ∈ w, IsWsChar c)
    (a r : Str) : ∀ acc,
    (fmFindClose acc (a ++ '\n' :: (chars "---" ++ w ++ '\n' :: r))).isSome := by
  induction a with
  | nil =>
    intro acc
    rw [List.nil_append, fmFindClose, if_pos rfl]
    have : fmCloseAt (chars "---" ++ w ++ '\n' :: r) = some r := by
      simp only [chars]
      show fmCloseAt ('-' :: '-' :: '-' :: (w ++ '\n' :: r)) = some r
      rw [fmCloseAt]
      exact stripWsNl_complete hw r
    rw [this]
    rfl
  | cons c a' ih =>
    intro acc
    rw [List.cons_append, fmFindClose]
    by_cases hc : c = '\n'
    · rw [if_pos hc]
      cases hclose : fmCloseAt (a' ++ '\n' :: (chars "---" ++ w ++ '\n' :: r)) with
      | some r' => simp
      | none => exact ih (c :: acc)
    · rw [if_neg hc]
      exact ih (c :: acc)

theorem hasFMShape_iff (content : Str) :
    HasFMShape content ↔ (frontmatterMatch content).isSome := by
  constructor
  · rintro ⟨w₁, blk, w₂, rest, hw₁, hw₂, heq⟩
    have h3 : content = '-' :: '-' :: '-' :: (w₁ ++ '\n' ::
        (blk ++ '\n' :: (chars "---" ++ w₂ ++ '\n' :: rest))) := by
      simpa [chars] using heq
    rw [h3]
    show (frontmatterMatch _).isSome
    rw [frontmatterMatch]
    rw [stripWsNl_complete hw₁ _]
    exact fmFindClose_complete hw₂ blk rest []
  · intro h
    cases hm : frontmatterMatch content with
    | none => rw [hm] at h; exact absurd h (by simp)
    | some p =>
      obtain ⟨g, rest⟩ := p
      unfold frontmatterMatch at hm
      split at hm
      · next r =>
        cases hs : stripWsNl r with
        | none => rw [hs] at hm; exact absurd hm (by simp)
        | some r1 =>
          rw [hs] at hm
          obtain ⟨w₁, hw₁, heq₁⟩ := stripWsNl_sound hs
          obtain ⟨a, w₂, hg, hw₂, heq₂⟩ := fmFindClose_sound hm
          refine ⟨w₁, g, w₂, rest, hw₁, hw₂, ?_⟩
          simp only [chars]
          show _ = '-' :: '-' :: '-' :: (w₁ ++ '\n' :: (g ++ '\n' ::
            ('-' :: '-' :: '-' :: (w₂ ++ '\n' :: rest))))
          rw [heq₁, heq₂]
          simp only [List.reverse_nil, List.nil_append] at hg
          rw [hg]
          simp [chars]
      · exact absurd hm (by simp)

theorem lookup_setKey_self {V : Type} (k : Str) (v : V) (m : AList V) :
    lookup k (setKey k v m) = some v := by
  induction m with
  | nil => simp [setKey, lookup]
  | cons p rest ih =>
    by_cases h : p.1 = k
    · simp [setKey, h, lookup]
    · simp [setKey, h, lookup, ih]

theorem lookup_setKey_ne {V : Type} {k' k : Str} (v : V) (m : AList V)
    (h : k' ≠ k) : lookup k' (setKey k v m) = lookup k' m := by
  induction m with
  | nil => simp [setKey, lookup, Ne.symm h]
  | cons p rest ih =>
    by_cases hp : p.1 = k
    · simp [setKey, hp, lookup, Ne.symm h, ih]
    · by_cases hp' : p.1 = k'
      · simp [setKey, hp, lookup, hp', ih, h]
      · simp [setKey, hp, lookup, hp', ih]

theorem lookup_append {V : Type} (k : Str) (m m' : AList V) :
    lookup k (m ++ m') =
      match lookup k m with
      | some v => some v
      | none => lookup k m' := by
  induction m with
  | nil => simp [lookup]
  | cons p rest ih =>
    by_cases hp : p.1 = k
    · simp [lookup, hp]
    · simp [lookup, hp, ih]

theorem lookup_updAppend_self (m : AList (List Str)) (t s : Str) :
    lookup t (updAppend m t s) =
      some (if s ∈ lookupD t m [] then lookupD t m []
            else lookupD t m [] ++ [s]) := by
  unfold updAppend
  cases hm : lookup t m with
  | none => simp [lookup_append, hm, lookupD, lookup]
  | some xs =>
    by_cases hs : s ∈ xs
    · simp [hs, hm, lookupD]
    · simp [hs, hm, lookupD, lookup_setKey_self]

theorem lookup_updAppend_ne {k t : Str} (h : k ≠ t)
    (m : AList (List Str)) (s : Str) :
    lookup k (updAppend m t s) = lookup k m := by
  unfold updAppend
  cases hm : lookup t m with
  | none =>
    rw [lookup_append]
    cases hk : lookup k m with
    | none => simp [lookup, Ne.symm h]
    | some v => simp
  | some xs =>
    by_cases hs : s ∈ xs
    · simp [hs]
    · simp [hs, lookup_setKey_ne _ _ h]

theorem mem_lookupD_updAppend_self (m : AList (List Str)) (t s : Str) :
    s ∈ lookupD t (updAppend m t s) [] := by
  simp only [lookupD, lookup_updAppend_self]
  split <;> simp_all

theorem mem_lookupD_updAppend_mono {x k : Str} (m : AList (List Str))
    (t s : Str) (h : x ∈ lookupD k m []) :
    x ∈ lookupD k (updAppend m t s) [] := by
  by_cases hk : k = t
  · subst hk
    simp only [lookupD, lookup_updAppend_self]
    split <;> simp_all [lookupD]
  · simpa [lookupD, lookup_updAppend_ne hk] using h

theorem isSome_lookup_updAppend {k : Str} (m : AList (List Str)) (t s : Str)
    (h : (lookup k m).isSome) : (lookup k (updAppend m t s)).isSome := by
  by_cases hk : k = t
  · subst hk; simp [lookup_updAppend_self]
  · simpa [lookup_updAppend_ne hk] using h

theorem nodup_updAppend (m : AList (List Str)) (t s : Str)
    (h : ∀ k, (lookupD k m []).Nodup) :
    ∀ k, (lookupD k (updAppend m t s) []).Nodup := by
  intro k
  by_cases hk : k = t
  · subst hk
    simp only [lookupD, lookup_updAppend_self]
    split
    · next hmem => simpa [lookupD] using h k
    · next hmem =>
      simp only [Option.getD_some]
      rw [List.nodup_append]
      refine ⟨by simpa [lookupD] using h k, by simp, ?_⟩
      intro a ha hb
      rw [List.mem_singleton] at hb
      exact hmem (hb ▸ ha)
  · simpa [lookupD, lookup_updAppend_ne hk] using h k

theorem addLinks_mono {x k : Str} (slug : Str) (links : List Str)
    (m : AList (List Str)) (h : x ∈ lookupD k m []) :
    x ∈ lookupD k (addLinks slug links m) [] := by
  induction links generalizing m with
  | nil => exact h
  | cons l rest ih =>
    exact ih _ (mem_lookupD_updAppend_mono _ _ _ h)

theorem addLinks_isSome {k : Str} (slug : Str) (links : List Str)
    (m : AList (List Str)) (h : (lookup k m).isSome) :
    (lookup k (addLinks slug links m)).isSome := by
  induction links generalizing m with
  | nil => exact h
  | cons l rest ih => exact ih _ (isSome_lookup_updAppend _ _ _ h)

theorem addLinks_nodup (slug : Str) (links : List Str)
    (m : AList (List Str)) (h : ∀ k, (lookupD k m []).Nodup) :
    ∀ k, (lookupD k (addLinks slug links m) []).Nodup := by
  induction links generalizing m with
  | nil => exact h
  | cons l rest ih => exact ih _ (nodup_updAppend _ _ _ h)

theorem addLinks_mem_self (slug : Str) (links : List Str)
    (m : AList (List Str)) {l : Str} (hl : l ∈ links) :
    slug ∈ lookupD (_normalise_link l) (addLinks slug links m) [] := by
  induction links generalizing m with
  | nil => cases hl
  | cons l₀ rest ih =>
    cases List.mem_cons.mp hl with
    | inl heq =>
      subst heq
      have h0 : slug ∈ lookupD (_normalise_link l)
          (updAppend m (_normalise_link l) slug) [] :=
        mem_lookupD_updAppend_self _ _ _
      exact addLinks_mono slug rest _ h0
    | inr hmem => exact ih (updAppend m (_normalise_link l₀) slug) hmem

theorem foldBL_mono {x k : Str} (notes : AList Note) (m : AList (List Str))
    (h : x ∈ lookupD k m []) :
    x ∈ lookupD k (notes.foldl (fun m p => addLinks p.1 p.2.links m) m) [] := by
  induction notes generalizing m with
  | nil => exact h
  | cons p rest ih => exact ih _ (addLinks_mono _ _ _ h)

theorem foldBL_isSome {k : Str} (notes : AList Note) (m : AList (List Str))
    (h : (lookup k m).isSome) :
    (lookup k (notes.foldl (fun m p => addLinks p.1 p.2.links m) m)).isSome := by
  induction notes generalizing m with
  | nil => exact h
  | cons p rest ih => exact ih _ (addLinks_isSome _ _ _ h)

theorem foldBL_nodup (notes : AList Note) (m : AList (List Str))
    (h : ∀ k, (lookupD k m []).Nodup) :
    ∀ k, (lookupD k (notes.foldl (fun m p => addLinks p.1 p.2.links m) m) []).Nodup := by
  induction notes generalizing m with
  | nil => exact h
  | cons p rest ih => exact ih _ (addLinks_nodup _ _ _ h)

theorem foldBL_mem {slug : Str} {note : Note} (notes : AList Note)
    (m : AList (List Str)) (hmem : (slug, note) ∈ notes) {l : Str}
    (hl : l ∈ note.links) :
    slug ∈ lookupD (_normalise_link l)
      (notes.foldl (fun m p => addLinks p.1 p.2.links m) m) [] := by
  induction notes generalizing m with
  | nil => cases hmem
  | cons p rest ih =>
    cases List.mem_cons.mp hmem with
    | inl heq =>
      subst heq
      have h0 : slug ∈ lookupD (_normalise_link l)
          (addLinks slug note.links m) [] := addLinks_mem_self _ _ _ hl
      exact foldBL_mono rest _ h0
    | inr hmem' => exact ih (addLinks p.1 p.2.links m) hmem'

theorem lookup_initBL (notes : AList Note) (k : Str) :
    lookup k (notes.map (fun p => (p.1, ([] : List Str)))) = none ∨
    lookup k (notes.map (fun p => (p.1, ([] : List Str)))) = some [] := by
  induction notes with
  | nil => exact Or.inl rfl
  | cons p rest ih =>
    by_cases hp : p.1 = k
    · exact Or.inr (by simp [lookup, hp])
    · simpa [lookup, hp] using ih

theorem isSome_initBL {k : Str} (notes : AList Note)
    (h : (lookup k notes).isSome) :
    (lookup k (notes.map (fun p => (p.1, ([] : List Str))))).isSome := by
  induction notes with
  | nil => simp [lookup] at h
  | cons p rest ih =>
    by_cases hp : p.1 = k
    · simp [lookup, hp]
    · simp only [lookup, hp] at h ⊢
      simpa using ih (by simpa using h)

theorem nodup_initBL (notes : AList Note) :
    ∀ k, (lookupD k (notes.map (fun p => (p.1, ([] : List Str)))) []).Nodup := by
  intro k
  rcases lookup_initBL notes k with h | h <;> simp [lookupD, h]

/-- Every backlink list built by `_build_backlinks` is duplicate-free. -/
theorem build_backlinks_nodup (notes : AList Note) :
    ∀ k, (lookupD k (_build_backlinks notes) []).Nodup :=
  foldBL_nodup _ _ (nodup_initBL notes)

/-- Every `(slug, note)` entry and link contributes its slug to the
normalised target's backlink list. -/
theorem build_backlinks_mem {slug : Str} {note : Note} (notes : AList Note)
    (hmem : (slug, note) ∈ notes) {l : Str} (hl : l ∈ note.links) :
    slug ∈ lookupD (_normalise_link l) (_build_backlinks notes) [] :=
  foldBL_mem _ _ hmem hl

/-- Every note slug has a (possibly empty) backlinks entry. -/
theorem build_backlinks_isSome {k : Str} (notes : AList Note)
    (h : (lookup k notes).isSome) :
    (lookup k (_build_backlinks notes)).isSome :=
  foldBL_isSome _ _ (isSome_initBL notes h)

theorem countP_eq_one_of_nodup_mem {x : Str} {l : List Str}
    (hnd : l.Nodup) (hx : x ∈ l) : l.countP (fun s => s = x) = 1 := by
  induction l with
  | nil => cases hx
  | cons a rest ih =>
    rw [List.countP_cons]
    rcases List.mem_cons.mp hx with h | h
    · subst h
      have h0 : rest.countP (fun s => s = x) = 0 := by
        rw [List.countP_eq_zero]
        intro b hb
        simp only [decide_eq_true_eq]
        rintro rfl
        exact (List.nodup_cons.mp hnd).1 hb
      simp [h0]
    · have hx' := ih (List.nodup_cons.mp hnd).2 h
      have hne : ¬ (a = x) := by
        rintro rfl
        exact (List.nodup_cons.mp hnd).1 h
      simp [hx', hne]

theorem lookup_mem {V : Type} {k : Str} {v : V} :
    ∀ {m : AList V}, lookup k m = some v → (k, v) ∈ m := by
  intro m
  induction m with
  | nil => intro h; cases h
  | cons p rest ih =>
    intro h
    rw [lookup] at h
    by_cases hp : p.1 = k
    · rw [if_pos hp] at h
      cases h
      exact List.mem_cons.mpr (Or.inl (by rw [← hp]))
    · exact List.mem_cons.mpr (Or.inr (ih (by rwa [if_neg hp] at h)))

theorem buildNotes_slug_eq {Y : YamlParser} {files : List (Str × Str)}
    {slug : Str} {note : Note}
    (h : lookup slug (buildNotes Y files) = some note) : note.slug = slug := by
  suffices hgen : ∀ (fs : List (Str × Str)) (acc : AList Note),
      (∀ s n, lookup s acc = some n → Note.slug n = s) →
      ∀ s n, lookup s (fs.foldl
        (fun acc f => setKey (parse_note Y f.1 f.2).slug (parse_note Y f.1 f.2) acc)
        acc) = some n → Note.slug n = s by
    exact hgen (globMd files) [] (fun s n hn => by cases hn) slug note h
  intro fs
  induction fs with
  | nil => exact fun acc hacc => hacc
  | cons f rest ih =>
    intro acc hacc
    refine ih _ ?_
    intro s n hn
    by_cases hs : s = (parse_note Y f.1 f.2).slug
    · subst hs
      rw [lookup_setKey_self] at hn
      cases hn
      rfl
    · exact hacc s n (by rwa [lookup_setKey_ne _ _ hs] at hn)

theorem scanLine_shape {slug : Str} {n : Nat} {line : Str} {it : TodoItem}
    (h : scanLine slug n line = some it) :
    it.source_slug = slug ∧ it.line_no = n ∧ it.raw_line = line ∧
      it.resolved = false := by
  simp only [scanLine] at h
  cases htm : taskMatch (pyStrip line) with
  | some g => rw [htm] at h; cases h; exact ⟨rfl, rfl, rfl, rfl⟩
  | none =>
    rw [htm] at h
    cases hcm : colonMatch (pyStrip line) with
    | some d => rw [hcm] at h; cases h; exact ⟨rfl, rfl, rfl, rfl⟩
    | none =>
      rw [hcm] at h
      by_cases hb : bareSearch (pyStrip line)
      · rw [if_pos hb] at h; cases h; exact ⟨rfl, rfl, rfl, rfl⟩
      · rw [if_neg hb] at h; cases h

theorem scanGo_mem {slug : Str} {it : TodoItem} :
    ∀ (lines : List Str) (inCode : Bool) (n : Nat),
      it ∈ scanGo slug inCode n lines →
      ∃ j line, lines[j]? = some line ∧ it.line_no = n + j ∧
        skipMatch line = false ∧
        (inCode = true ↔ (lines.take j).countP skipMatch % 2 = 1) ∧
        scanLine slug (n + j) line = some it := by
  intro lines
  induction lines with
  | nil => intro inCode n h; simp [scanGo] at h
  | cons line₀ rest ih =>
    intro inCode n h
    rw [scanGo] at h
    by_cases hskip : skipMatch line₀
    · rw [if_pos hskip] at h
      obtain ⟨j, line, hget, hln, hsm, hflag, hsl⟩ := ih (!inCode) (n + 1) h
      refine ⟨j + 1, line, by simpa using hget, by omega, hsm, ?_, ?_⟩
      · rw [List.take_succ_cons, List.countP_cons]
        cases inCode <;> simp_all <;> omega
      · rw [show n + (j + 1) = (n + 1) + j by omega]
        exact hsl
    · rw [if_neg hskip] at h
      by_cases hin : inCode
      · rw [if_pos hin] at h
        obtain ⟨j, line, hget, hln, hsm, hflag, hsl⟩ := ih inCode (n + 1) h
        refine ⟨j + 1, line, by simpa using hget, by omega, hsm, ?_, ?_⟩
        · rw [List.take_succ_cons, List.countP_cons]
          simp only [hskip]
          simpa using hflag
        · rw [show n + (j + 1) = (n + 1) + j by omega]
          exact hsl
      · rw [if_neg hin] at h
        have hlift : it ∈ scanGo slug inCode (n + 1) rest →
            ∃ j line, (line₀ :: rest)[j]? = some line ∧
              it.line_no = n + j ∧ skipMatch line = false ∧
              (inCode = true ↔ ((line₀ :: rest).take j).countP skipMatch % 2 = 1) ∧
              scanLine slug (n + j) line = some it := by
          intro hmem
          obtain ⟨j, line, hget, hln, hsm, hflag, hsl⟩ := ih inCode (n + 1) hmem
          refine ⟨j + 1, line, by simpa using hget, by omega, hsm, ?_, ?_⟩
          · rw [List.take_succ_cons, List.countP_cons]
            simp only [hskip]
            simpa using hflag
          · rw [show n + (j + 1) = (n + 1) + j by omega]
            exact hsl
        cases hsl : scanLine slug n line₀ with
        | some it₀ =>
          rw [hsl] at h
          rcases List.mem_cons.mp h with heq | hmem
          · subst heq
            refine ⟨0, line₀, by simp, ?_, by simpa using hskip, ?_, ?_⟩
            · have := (scanLine_shape hsl).2.1
              omega
            · simp [hin]
            · simpa using hsl
          · exact hlift hmem
        | none =>
          rw [hsl] at h
          exact hlift h

theorem scanGo_le {slug : Str} {it : TodoItem} :
    ∀ (lines : List Str) (inCode : Bool) (n : Nat),
      it ∈ scanGo slug inCode n lines → n ≤ it.line_no := by
  intro lines inCode n h
  obtain ⟨j, line, _, hln, _, _, _⟩ := scanGo_mem lines inCode n h
  omega

theorem scanGo_slug {slug : Str} {it : TodoItem} :
    ∀ (lines : List Str) (inCode : Bool) (n : Nat),
      it ∈ scanGo slug inCode n lines → it.source_slug = slug := by
  intro lines inCode n h
  obtain ⟨j, line, _, _, _, _, hsl⟩ := scanGo_mem lines inCode n h
  exact (scanLine_shape hsl).1

theorem scanGo_pairwise (slug : Str) :
    ∀ (lines : List Str) (inCode : Bool) (n : Nat),
      (scanGo slug inCode n lines).Pairwise
        (fun a b => a.line_no < b.line_no) := by
  intro lines
  induction lines with
  | nil => intro inCode n; simp [scanGo]
  | cons line₀ rest ih =>
    intro inCode n
    rw [scanGo]
    by_cases hskip : skipMatch line₀
    · rw [if_pos hskip]; exact ih (!inCode) (n + 1)
    · rw [if_neg hskip]
      by_cases hin : inCode
      · rw [if_pos hin]; exact ih inCode (n + 1)
      · rw [if_neg hin]
        cases hsl : scanLine slug n line₀ with
        | some it₀ =>
          refine List.Pairwise.cons ?_ (ih inCode (n + 1))
          intro b hb
          have hbn := @scanGo_le slug b rest inCode (n + 1) hb
          have := (scanLine_shape hsl).2.1
          omega
        | none => exact ih inCode (n + 1)

theorem scan_todos_items_eq (idx : VaultIndex) :
    (scan_todos idx).items =
      idx.notes.flatMap (fun p => scanBody p.1 p.2.body) := by
  show idx.notes.foldl (fun acc p => acc ++ scanBody p.1 p.2.body) [] = _
  suffices hgen : ∀ (notes : AList Note) (acc : List TodoItem),
      notes.foldl (fun acc p => acc ++ scanBody p.1 p.2.body) acc =
        acc ++ notes.flatMap (fun p => scanBody p.1 p.2.body) by
    simpa using hgen idx.notes []
  intro notes
  induction notes with
  | nil => intro acc; simp
  | cons p rest ihn => intro acc; simp [ihn]

theorem lookup_eq_of_mem_nodup {V : Type} {m : AList V} {k : Str} {v : V}
    (hnd : (m.map Prod.fst).Nodup) (hm : (k, v) ∈ m) :
    lookup k m = some v := by
  induction m with
  | nil => cases hm
  | cons p rest ih =>
    rcases List.mem_cons.mp hm with heq | hmem
    · subst heq; simp [lookup]
    · have hk : p.1 ≠ k := by
        intro hpk
        have : k ∈ rest.map Prod.fst :=
          List.mem_map.mpr ⟨(k, v), hmem, rfl⟩
        rw [← hpk] at this
        exact (List.nodup_cons.mp hnd).1 this
      rw [lookup, if_neg hk]
      exact ih (List.nodup_cons.mp hnd).2 hmem

theorem mem_keys_setKey {V : Type} {x k : Str} {v : V} :
    ∀ {m : AList V}, x ∈ (setKey k v m).map Prod.fst →
      x ∈ m.map Prod.fst ∨ x = k := by
  intro m
  induction m with
  | nil =>
    intro h
    simp only [setKey, List.map_cons, List.map_nil, List.mem_singleton] at h
    exact Or.inr h
  | cons p rest ih =>
    intro h
    by_cases hp : p.1 = k
    · rw [setKey, if_pos hp] at h
      simp only [List.map_cons, List.mem_cons] at h ⊢
      rcases h with heq | hmem
      · exact Or.inl (Or.inl heq)
      · exact Or.inl (Or.inr hmem)
    · rw [setKey, if_neg hp] at h
      simp only [List.map_cons, List.mem_cons] at h ⊢
      rcases h with heq | hmem
      · exact Or.inl (Or.inl heq)
      · rcases ih hmem with hl | hr
        · exact Or.inl (Or.inr hl)
        · exact Or.inr hr

theorem nodup_keys_setKey {V : Type} (k : Str) (v : V) :
    ∀ (m : AList V), (m.map Prod.fst).Nodup →
      ((setKey k v m).map Prod.fst).Nodup := by
  intro m
  induction m with
  | nil => intro _; simp [setKey]
  | cons p rest ih =>
    intro hnd
    by_cases hp : p.1 = k
    · rw [setKey, if_pos hp]
      exact hnd
    · rw [setKey, if_neg hp]
      rw [List.map_cons, List.nodup_cons]
      refine ⟨?_, ih (List.nodup_cons.mp hnd).2⟩
      intro hmem
      rcases mem_keys_setKey hmem with hl | hr
      · exact (List.nodup_cons.mp hnd).1 hl
      · exact hp hr

theorem buildNotes_keys_nodup (Y : YamlParser) (files : List (Str × Str)) :
    ((buildNotes Y files).map Prod.fst).Nodup := by
  suffices hgen : ∀ (fs : List (Str × Str)) (acc : AList Note),
      (acc.map Prod.fst).Nodup →
      ((fs.foldl (fun acc f =>
        setKey (parse_note Y f.1 f.2).slug (parse_note Y f.1 f.2) acc)
        acc).map Prod.fst).Nodup by
    exact hgen (globMd files) [] (by simp)
  intro fs
  induction fs with
  | nil => exact fun acc h => h
  | cons f rest ih =>
    intro acc hacc
    exact ih _ (nodup_keys_setKey _ _ _ hacc)

theorem flatMap_scan_slug_mem {it : TodoItem} (notes : AList Note)
    (h : it ∈ notes.flatMap (fun p => scanBody p.1 p.2.body)) :
    it.source_slug ∈ notes.map Prod.fst := by
  obtain ⟨p, hp, hit⟩ := List.mem_flatMap.mp h
  have := @scanGo_slug p.1 it (splitlines p.2.body) false 1 hit
  rw [this]
  exact List.mem_map.mpr ⟨p, hp, rfl⟩

theorem scan_flatMap_pairwise (notes : AList Note)
    (hnd : (notes.map Prod.fst).Nodup) :
    (notes.flatMap (fun p => scanBody p.1 p.2.body)).Pairwise
      (fun a b => a.source_slug ≠ b.source_slug ∨ a.line_no ≠ b.line_no) := by
  induction notes with
  | nil => simp
  | cons p rest ih =>
    rw [List.flatMap_cons]
    rw [List.pairwise_append]
    refine ⟨?_, ih (List.nodup_cons.mp hnd).2, ?_⟩
    · refine ((scanGo_pairwise p.1 _ false 1).imp ?_)
      intro a b hab
      exact Or.inr (by omega)
    · intro a ha b hb
      have has : a.source_slug = p.1 := scanGo_slug _ false 1 ha
      have hbs : b.source_slug ∈ rest.map Prod.fst :=
        flatMap_scan_slug_mem rest hb
      refine Or.inl ?_
      rw [has]
      intro heq
      rw [← heq] at hbs
      exact (List.nodup_cons.mp hnd).1 hbs

theorem replaceTK_cons_ne (a : Char) (rest : Str)
    (hne : ∀ (r : List Char), a = 'T' → rest = 'K' :: r → False) :
    replaceTK (a :: rest) = a :: replaceTK rest := by
  rw [replaceTK.eq_def]
  split
  · next r heq =>
    injection heq with h1 h2
    exact absurd h1 (fun h1 => hne r h1 h2)
  · next c' rest' hx heq =>
    injection heq with h1 h2
    rw [h1, h2]
  · next heq => cases heq

theorem mem_replaceTK {c : Char} (s : Str) (h : c ∈ replaceTK s) : c ∈ s := by
  induction s using replaceTK.induct with
  | case1 rest ih =>
    rw [replaceTK] at h
    exact List.mem_cons.mpr (Or.inr (List.mem_cons.mpr (Or.inr (ih h))))
  | case2 a rest hne ih =>
    rw [replaceTK_cons_ne a rest hne] at h
    rcases List.mem_cons.mp h with heq | hmem
    · exact List.mem_cons.mpr (Or.inl heq)
    · exact List.mem_cons.mpr (Or.inr (ih hmem))
  | case3 => simp [replaceTK] at h

theorem mem_of_mem_dropWhile {p : Char → Bool} {c : Char} {s : Str}
    (h : c ∈ s.dropWhile p) : c ∈ s :=
  (List.dropWhile_sublist (p := p) (l := s)).subset h

theorem mem_stripRight {p : Char → Bool} {c : Char} {s : Str}
    (h : c ∈ stripRight p s) : c ∈ s := by
  unfold stripRight at h
  rw [List.mem_reverse] at h
  exact List.mem_reverse.mp (mem_of_mem_dropWhile h)

theorem mem_pyStripChars {set : List Char} {c : Char} {s : Str}
    (h : c ∈ pyStripChars set s) : c ∈ s :=
  mem_of_mem_dropWhile (mem_stripRight h)

theorem dropWhile_head_false (p : Char → Bool) :
    ∀ s : Str, s.dropWhile p = [] ∨
      ∃ c rest, s.dropWhile p = c :: rest ∧ p c = false := by
  intro s
  induction s with
  | nil => exact Or.inl rfl
  | cons c rest ih =>
    by_cases hc : p c
    · simpa [List.dropWhile, hc] using ih
    · exact Or.inr ⟨c, rest, by simp [List.dropWhile, hc],
        by simpa using hc⟩

theorem stripRight_decomp (p : Char → Bool) (s : Str) :
    ∃ w, (∀ c ∈ w, p c = true) ∧ s = stripRight p s ++ w := by
  refine ⟨(s.reverse.takeWhile p).reverse, ?_, ?_⟩
  · intro c hc
    exact List.mem_takeWhile_imp (List.mem_reverse.mp hc)
  · unfold stripRight
    conv_lhs => rw [← List.reverse_reverse s,
      ← List.takeWhile_append_dropWhile (p := p) (l := s.reverse)]
    rw [List.reverse_append]

theorem stripRight_last_false {p : Char → Bool} {s : Str} :
    stripRight p s = [] ∨
      ∃ c rest, (stripRight p s).reverse = c :: rest ∧ p c = false := by
  rcases dropWhile_head_false p s.reverse with h | ⟨c, rest, heq, hc⟩
  · exact Or.inl (by simp [stripRight, h])
  · exact Or.inr ⟨c, rest, by simp [stripRight, heq], hc⟩

theorem pyStrip_eq_self {s : Str}
    (hh : ∀ c rest, s = c :: rest → isPySpace c = false)
    (hl : ∀ c rest, s.reverse = c :: rest → isPySpace c = false) :
    pyStrip s = s := by
  unfold pyStrip stripRight
  have h1 : s.dropWhile isPySpace = s := by
    cases hs : s with
    | nil => rfl
    | cons c rest => rw [List.dropWhile_cons, if_neg (by simp [hh c rest hs])]
  rw [h1]
  cases hr : s.reverse with
  | nil =>
    have : s = [] := by simpa using congrArg List.reverse hr
    simp [this]
  | cons c rest =>
    rw [List.dropWhile_cons, if_neg (by simp [hl c rest hr])]
    rw [← hr, List.reverse_reverse]

/-- For a line whose whitespace characters are all plain spaces, the
bare-form description formula needs no second whitespace pass: it is
exactly "remove `TK`, trim surrounding `-`, `:`, space". -/
theorem bareDesc_space_only (s : Str) (hs : ∀ c ∈ s, isPySpace c → c = ' ') :
    bareDesc s =
      (if pyStripChars [' ', '-', ':'] (replaceTK s) = [] then s
       else pyStripChars [' ', '-', ':'] (replaceTK s)) := by
  unfold bareDesc
  cases hd : pyStripChars [' ', '-', ':'] (replaceTK s) with
  | nil => rfl
  | cons c rest =>
    have hmem : ∀ x ∈ pyStripChars [' ', '-', ':'] (replaceTK s), x ∈ s :=
      fun x hx => mem_replaceTK s (mem_pyStripChars hx)
    have hnotp : ∀ x ∈ pyStripChars [' ', '-', ':'] (replaceTK s),
        ([' ', '-', ':'].contains x) = false → isPySpace x = false := by
      intro x hx hxp
      by_cases hw : isPySpace x
      · have := hs x (hmem x hx) hw
        subst this
        simp at hxp
      · simpa using hw
    have hstrip : pyStrip (pyStripChars [' ', '-', ':'] (replaceTK s)) =
        pyStripChars [' ', '-', ':'] (replaceTK s) := by
      apply pyStrip_eq_self
      · intro c₀ rest₀ hcons
        have hc₀ : c₀ ∈ pyStripChars [' ', '-', ':'] (replaceTK s) := by
          rw [hcons]; simp
        have hhead : ([' ', '-', ':'].contains c₀) = false := by
          rcases dropWhile_head_false
              (fun c => [' ', '-', ':'].contains c)
              (replaceTK s) with h0 | ⟨c₁, rest₁, heq₁, hc₁⟩
          · rw [pyStripChars, h0] at hcons
            simp [stripRight] at hcons
          · rw [pyStripChars, heq₁] at hcons
            obtain ⟨w, hw, hdec⟩ := stripRight_decomp
              (fun c => [' ', '-', ':'].contains c) (c₁ :: rest₁)
            rw [hcons] at hdec
            have : c₁ = c₀ := by
              have := congrArg (fun l => l.head?) hdec
              simpa using this
            rw [← this]
            exact hc₁
        exact hnotp c₀ hc₀ hhead
      · intro c₀ rest₀ hcons
        have hc₀ : c₀ ∈ pyStripChars [' ', '-', ':'] (replaceTK s) := by
          rw [← List.mem_reverse, hcons]; simp
        have hlast : ([' ', '-', ':'].contains c₀) = false := by
          rcases stripRight_last_false
              (p := fun c => [' ', '-', ':'].contains c)
              (s := (replaceTK s).dropWhile
                (fun c => [' ', '-', ':'].contains c)) with h0 | hsome
          · rw [pyStripChars] at hcons
            rw [h0] at hcons
            cases hcons
          · obtain ⟨c₁, rest₁, heq₁, hc₁⟩ := hsome
            rw [pyStripChars] at hcons
            rw [hcons] at heq₁
            injection heq₁ with h1 _
            rw [← h1] at hc₁
            exact hc₁
        exact hnotp c₀ hc₀ hlast
    rw [hd] at hstrip
    simp [hstrip]

theorem dedupGo_sublist : ∀ (xs : List Str) (seen : List Str),
    List.Sublist (dedupGo seen xs) xs := by
  intro xs
  induction xs with
  | nil => intro seen; simp [dedupGo]
  | cons x rest ih =>
    intro seen
    rw [dedupGo]
    by_cases hx : x ∈ seen
    · rw [if_pos hx]
      exact (ih seen).cons x
    · rw [if_neg hx]
      exact (ih (x :: seen)).cons₂ x

theorem dedupGo_nodup : ∀ (xs : List Str) (seen : List Str),
    (dedupGo seen xs).Nodup ∧ ∀ x ∈ dedupGo seen xs, x ∉ seen := by
  intro xs
  induction xs with
  | nil => intro seen; simp [dedupGo]
  | cons x rest ih =>
    intro seen
    rw [dedupGo]
    by_cases hx : x ∈ seen
    · rw [if_pos hx]
      exact ih seen
    · rw [if_neg hx]
      obtain ⟨hnd, hns⟩ := ih (x :: seen)
      refine ⟨List.nodup_cons.mpr ⟨?_, hnd⟩, ?_⟩
      · intro hmem
        exact hns x hmem (by simp)
      · intro y hy hyseen
        rcases List.mem_cons.mp hy with heq | hmem
        · exact hx (heq ▸ hyseen)
        · exact hns y hmem (by simp [hyseen])

theorem mem_dedupGo : ∀ (xs : List Str) (seen : List Str) (x : Str),
    x ∈ xs → x ∈ seen ∨ x ∈ dedupGo seen xs := by
  intro xs
  induction xs with
  | nil => intro seen x h; cases h
  | cons y rest ih =>
    intro seen x h
    rw [dedupGo]
    by_cases hy : y ∈ seen
    · rw [if_pos hy]
      rcases List.mem_cons.mp h with heq | hmem
      · exact Or.inl (heq ▸ hy)
      · exact ih seen x hmem
    · rw [if_neg hy]
      rcases List.mem_cons.mp h with heq | hmem
      · exact Or.inr (by simp [heq])
      · rcases ih (y :: seen) x hmem with hs | hd
        · rcases List.mem_cons.mp hs with heq | hseen
          · exact Or.inr (by simp [heq])
          · exact Or.inl hseen
        · exact Or.inr (List.mem_cons.mpr (Or.inr hd))

theorem drop_length_takeWhile (p : Char → Bool) (l : Str) :
    l.drop (l.takeWhile p).length = l.dropWhile p := by
  induction l with
  | nil => rfl
  | cons c rest ih =>
    by_cases hc : p c
    · simp [List.takeWhile_cons, List.dropWhile_cons, hc, ih]
    · simp [List.takeWhile_cons, List.dropWhile_cons, hc]

theorem tagGo_sound {t : Str} :
    ∀ (s : Str) (prev : Option Char) (skip : Nat),
      t ∈ tagGo prev skip s →
      ∃ pre post, s = pre ++ '#' :: (t ++ post) ∧ t ≠ [] ∧
        (∀ c ∈ t, tagChar c = true) ∧
        (∀ c r, post = c :: r → tagChar c = false) ∧
        (pre.reverse = [] → tagPrevOk prev = true) ∧
        (∀ c r, pre.reverse = c :: r → tagExcl c = false) := by
  intro s
  induction s with
  | nil => intro prev skip h; simp [tagGo] at h
  | cons c₀ rest ih =>
    intro prev skip h
    have step : ∀ (k : Nat), t ∈ tagGo (some c₀) k rest →
        ∃ pre post, (c₀ :: rest : Str) = pre ++ '#' :: (t ++ post) ∧
          t ≠ [] ∧ (∀ c ∈ t, tagChar c = true) ∧
          (∀ c r, post = c :: r → tagChar c = false) ∧
          (pre.reverse = [] → tagPrevOk prev = true) ∧
          (∀ c r, pre.reverse = c :: r → tagExcl c = false) := by
      intro k hk
      obtain ⟨pre', post, heq, hne, hchars, hpost, hpre1, hpre2⟩ :=
        ih (some c₀) k hk
      refine ⟨c₀ :: pre', post, by simp [heq], hne, hchars, hpost, ?_, ?_⟩
      · intro habs; simp at habs
      · intro d r hdr
        rw [List.reverse_cons] at hdr
        cases hpre : pre'.reverse with
        | nil =>
          rw [hpre, List.nil_append] at hdr
          injection hdr with h1 _
          have := hpre1 hpre
          rw [← h1]
          simpa [tagPrevOk] using this
        | cons e r' =>
          rw [hpre, List.cons_append] at hdr
          injection hdr with h1 _
          exact h1 ▸ hpre2 e r' hpre
    cases skip with
    | succ k =>
      rw [tagGo] at h
      exact step k h
    | zero =>
      rw [tagGo] at h
      split at h
      · next hcond =>
        have hc12 : c₀ = '#' ∧ tagPrevOk prev = true := by
          simpa [Bool.and_eq_true] using hcond
        obtain ⟨hc1, hc2⟩ := hc12
        subst hc1
        by_cases hg : rest.takeWhile tagChar = []
        · rw [if_pos hg] at h
          exact step 0 h
        · rw [if_neg hg] at h
          rcases List.mem_cons.mp h with heq | hmem
          · subst heq
            refine ⟨[], rest.dropWhile tagChar, ?_, hg, ?_, ?_, ?_, ?_⟩
            · rw [List.nil_append]
              congr 1
              conv_lhs => rw [← List.takeWhile_append_dropWhile
                (p := tagChar) (l := rest)]
            · exact fun c hcm => List.mem_takeWhile_imp hcm
            · intro c r hcr
              rcases dropWhile_head_false tagChar rest with h0 | ⟨d, r', hd, hdc⟩
              · rw [h0] at hcr; cases hcr
              · rw [hd] at hcr
                injection hcr with h1 _
                exact h1 ▸ hdc
            · intro _; exact hc2
            · intro c r hcr; cases hcr
          · obtain ⟨pre', post, heq, hne, hchars, hpost, hpre1, hpre2⟩ :=
              ih (some '#') (rest.takeWhile tagChar).length hmem
            refine ⟨'#' :: pre', post, by simp [heq], hne, hchars, hpost, ?_, ?_⟩
            · intro habs; simp at habs
            · intro d r hdr
              rw [List.reverse_cons] at hdr
              cases hpre : pre'.reverse with
              | nil =>
                exact absurd (hpre1 hpre) (by simp [tagPrevOk, tagExcl])
              | cons e r' =>
                rw [hpre, List.cons_append] at hdr
                injection hdr with h1 _
                exact h1 ▸ hpre2 e r' hpre
      · next hcond =>
        exact step 0 h

/-! ## Claim theorems -/

/-- C1: `edges()` returns one `(source_slug, normalised target)` pair per
outgoing link of every note (the target normalised exactly as in
backlink-building), applying no de-duplication of its own: concretely, a
note whose body links to the target `b` twice (via `[[b]]` and `[[b.md]]`)
yields the pair `("a", "b")` twice. -/
theorem edges_one_pair_per_link :
    (∀ idx : VaultIndex,
      edges idx =
        idx.notes.flatMap (fun p => p.2.links.map (fun l => (p.1, _normalise_link l)))) ∧
    (buildIndex (fun _ => none) [(chars "a.md", chars "[[b]] [[b.md]]")]).notes.flatMap
        (fun p => p.2.links) = [chars "b", chars "b.md"] ∧
    edges (buildIndex (fun _ => none) [(chars "a.md", chars "[[b]] [[b.md]]")]) =
      [(chars "a", chars "b"), (chars "a", chars "b")] := by
  refine ⟨fun idx => ?_, by decide, by decide⟩
  simpa using edges_foldl_acc idx.notes []

/-- C2: `build()` is idempotent and fully replaces all three structures:
for an unchanged directory listing, a second `build()` produces `notes`,
`backlinks` and `tags` identical (as ordered mappings) to the first, and
the result never depends on the previous in-memory state. -/
theorem build_idempotent (Y : YamlParser) (files : List (Str × Str))
    (s s' : VaultIndex) :
    (build (build s Y files) Y files).notes = (build s Y files).notes ∧
    (build (build s Y files) Y files).backlinks = (build s Y files).backlinks ∧
    (build (build s Y files) Y files).tags = (build s Y files).tags ∧
    build s Y files = build s' Y files :=
  ⟨rfl, rfl, rfl, rfl⟩

/-- C9: `append_todo` strictly appends: the previous content of
`todos.md` is an unchanged prefix of the new content; exactly one line
(one trailing newline, none inside, given newline-free inputs) of the
fixed todo shape is added at the end; an absent file is created with the
front-matter header; and two successive calls leave both descriptions
present. -/
theorem append_todo_strict_append :
    (∀ c d s t, append_todo (some c) d s t = c ++ todoLine d s t) ∧
    (∀ d s t, append_todo none d s t = todosHeader ++ todoLine d s t) ∧
    (∀ d s t, '\n' ∉ d → '\n' ∉ s → '\n' ∉ t →
      (todoLine d s t).count '\n' = 1 ∧ (todoLine d s t).getLast? = some '\n') ∧
    (∀ c d₁ s₁ t₁ d₂ s₂ t₂,
      append_todo (some (append_todo (some c) d₁ s₁ t₁)) d₂ s₂ t₂ =
        c ++ (chars "- [ ] TK: " ++ d₁ ++
          ((if s₁ = [] then [] else chars " (from [[" ++ s₁ ++ chars "]])") ++
            chars " — " ++ t₁ ++ ['\n'] ++ chars "- [ ] TK: ") ++ d₂ ++
          ((if s₂ = [] then [] else chars " (from [[" ++ s₂ ++ chars "]])") ++
            chars " — " ++ t₂ ++ ['\n']))) := by
  refine ⟨fun c d s t => rfl, fun d s t => rfl, fun d s t hd hs ht => ⟨?_, ?_⟩,
    fun c d₁ s₁ t₁ d₂ s₂ t₂ => ?_⟩
  · have hd0 : d.count '\n' = 0 := List.count_eq_zero.2 hd
    have ht0 : t.count '\n' = 0 := List.count_eq_zero.2 ht
    have hs0 : List.count '\n'
        (if s = [] then ([] : Str) else chars " (from [[" ++ s ++ chars "]])") = 0 := by
      split
      · rfl
      · simp only [List.count_append, List.count_eq_zero.2 hs]
        decide
    simp only [todoLine, List.count_append, hd0, ht0, hs0]
    decide
  · simp [todoLine]
  · simp only [append_todo, todoLine, List.append_assoc]

/-- C9 witness: the single-line property evaluated at a concrete call. -/
theorem append_todo_strict_append_witness :
    (todoLine (chars "buy milk") (chars "inbox") (chars "2026-10-12")).count '\n' = 1 :=
  (append_todo_strict_append.2.2.1 (chars "buy milk") (chars "inbox")
    (chars "2026-10-12") (by decide) (by decide) (by decide)).1

/-- C3: immediately after a build, `backlinks` is fully consistent with
`notes`: for every note and every link, the note's slug occurs in the
normalised target's backlink list exactly once (also for dangling
targets); every backlink list is duplicate-free; every note slug has a
backlinks entry; and in the concrete alpha/beta vault both edges and both
reciprocal backlinks are present. -/
theorem backlinks_consistent :
    (∀ Y files slug note l,
      lookup slug (buildIndex Y files).notes = some note → l ∈ note.links →
      (lookupD (_normalise_link l)
        (buildIndex Y files).backlinks []).countP (fun s => s = note.slug) = 1) ∧
    (∀ Y files t, (lookupD t (buildIndex Y files).backlinks []).Nodup) ∧
    (∀ Y files slug, (lookup slug (buildIndex Y files).notes).isSome →
      (lookup slug (buildIndex Y files).backlinks).isSome) ∧
    ((chars "alpha", chars "beta") ∈ edges (buildIndex (fun _ => none)
        [(chars "alpha.md", chars "Links to [[beta]] and [[gamma]]."),
         (chars "beta.md", chars "Back to [[alpha]].")]) ∧
     (chars "beta", chars "alpha") ∈ edges (buildIndex (fun _ => none)
        [(chars "alpha.md", chars "Links to [[beta]] and [[gamma]]."),
         (chars "beta.md", chars "Back to [[alpha]].")]) ∧
     chars "beta" ∈ lookupD (chars "alpha") (buildIndex (fun _ => none)
        [(chars "alpha.md", chars "Links to [[beta]] and [[gamma]]."),
         (chars "beta.md", chars "Back to [[alpha]].")]).backlinks [] ∧
     chars "alpha" ∈ lookupD (chars "beta") (buildIndex (fun _ => none)
        [(chars "alpha.md", chars "Links to [[beta]] and [[gamma]]."),
         (chars "beta.md", chars "Back to [[alpha]].")]).backlinks []) := by
  refine ⟨?_, ?_, ?_, by decide, by decide, by decide, by decide⟩
  · intro Y files slug note l hlk hl
    have hslug : note.slug = slug := buildNotes_slug_eq hlk
    have hmem : (slug, note) ∈ buildNotes Y files := lookup_mem hlk
    have hin : slug ∈ lookupD (_normalise_link l)
        (_build_backlinks (buildNotes Y files)) [] :=
      build_backlinks_mem _ hmem hl
    have hnd := build_backlinks_nodup (buildNotes Y files) (_normalise_link l)
    rw [hslug]
    exact countP_eq_one_of_nodup_mem hnd hin
  · intro Y files t
    exact build_backlinks_nodup (buildNotes Y files) t
  · intro Y files slug h
    exact build_backlinks_isSome (buildNotes Y files) h

/-- C3 witness: in the alpha/beta vault, "alpha" occurs exactly once in
the backlink list of "beta". -/
theorem backlinks_consistent_witness :
    (lookupD (chars "beta") (buildIndex (fun _ => none)
        [(chars "alpha.md", chars "Links to [[beta]] and [[gamma]]."),
         (chars "beta.md", chars "Back to [[alpha]].")]).backlinks []).countP
      (fun s => s = chars "alpha") = 1 :=
  backlinks_consistent.1 (fun _ => none)
    [(chars "alpha.md", chars "Links to [[beta]] and [[gamma]]."),
     (chars "beta.md", chars "Back to [[alpha]].")]
    (chars "alpha")
    ⟨chars "alpha.md", chars "alpha",
      chars "Links to [[beta]] and [[gamma]].", [],
      [chars "beta", chars "gamma"], []⟩
    (chars "beta") (by decide) (by decide)

/-- C5: every `TodoItem` the scanner produces has `resolved = false` and a
1-based line number over the note's body (front matter already stripped),
with `raw_line` the body line at that position; lines yield at most one
item each (all items differ in `(source_slug, line_no)`); and per line the
three patterns are tried in task / colon / bare order, the first match
determining the description (no item when none matches). -/
theorem scan_todos_first_match :
    (∀ Y files, ∀ it ∈ (scan_todos (buildIndex Y files)).items,
      it.resolved = false ∧
      ∃ note j, lookup it.source_slug (buildIndex Y files).notes = some note ∧
        (splitlines note.body)[j]? = some it.raw_line ∧ it.line_no = j + 1 ∧
        scanLine it.source_slug it.line_no it.raw_line = some it) ∧
    (∀ Y files, ((scan_todos (buildIndex Y files)).items).Pairwise
      (fun a b => a.source_slug ≠ b.source_slug ∨ a.line_no ≠ b.line_no)) ∧
    (∀ slug n line it, scanLine slug n line = some it →
      ((∀ g, taskMatch (pyStrip line) = some g →
        it.description = (match g with
          | none => pyStrip line
          | some d => if pyStrip d = [] then pyStrip line else pyStrip d)) ∧
      (taskMatch (pyStrip line) = none →
        ∀ d, colonMatch (pyStrip line) = some d →
          it.description = pyStrip d) ∧
      (taskMatch (pyStrip line) = none → colonMatch (pyStrip line) = none →
        it.description = bareDesc (pyStrip line) ∧
          bareSearch (pyStrip line) = true))) ∧
    (∀ slug n line, taskMatch (pyStrip line) = none →
      colonMatch (pyStrip line) = none → bareSearch (pyStrip line) = false →
      scanLine slug n line = none) := by
  refine ⟨?_, ?_, ?_, ?_⟩
  · intro Y files it hit
    rw [scan_todos_items_eq] at hit
    obtain ⟨p, hp, hmem⟩ := List.mem_flatMap.mp hit
    obtain ⟨j, line, hget, hln, hsm, hflag, hsl⟩ :=
      scanGo_mem (splitlines p.2.body) false 1 hmem
    obtain ⟨hslug, hno, hraw, hres⟩ := scanLine_shape hsl
    refine ⟨hres, p.2, j, ?_, ?_, by omega, ?_⟩
    · rw [hslug]
      exact lookup_eq_of_mem_nodup (buildNotes_keys_nodup Y files) hp
    · rw [hraw]; exact hget
    · rw [hslug, hno, hraw]; exact hsl
  · intro Y files
    rw [scan_todos_items_eq]
    exact scan_flatMap_pairwise _ (buildNotes_keys_nodup Y files)
  · intro slug n line it h
    simp only [scanLine] at h
    refine ⟨?_, ?_, ?_⟩
    · intro g hg
      rw [hg] at h
      cases h
      rfl
    · intro htm d hd
      rw [htm, hd] at h
      cases h
      rfl
    · intro htm hcm
      rw [htm, hcm] at h
      by_cases hb : bareSearch (pyStrip line)
      · rw [if_pos hb] at h
        cases h
        exact ⟨rfl, hb⟩
      · rw [if_neg hb] at h
        cases h
  · intro slug n line htm hcm hb
    simp only [scanLine, htm, hcm, hb]
    rfl

/-- C5 witness: on the line `"TK: x TK"` both the colon pattern and the
bare pattern match; the produced description comes from the colon pattern
(the first matching one). -/
theorem scan_todos_first_match_witness :
    (⟨chars "n", 1, chars "x TK", chars "TK: x TK", false⟩
      : TodoItem).description = pyStrip (chars "x TK") :=
  (scan_todos_first_match.2.2.1 (chars "n") 1 (chars "TK: x TK")
      ⟨chars "n", 1, chars "x TK", chars "TK: x TK", false⟩
      (by decide)).2.1 (by decide) (chars "x TK") (by decide)

/-- C6: every produced item comes from a line that does not match the
fence/comment-open marker and at which the `in_code_block` flag is off —
the flag at a line being exactly the parity of marker lines above it, so
each marker line flips it and is itself skipped; a TK inside a fenced
block is never surfaced (also when a backtick fence is closed by a tilde
fence). -/
theorem code_fence_never_surfaced :
    (∀ Y files, ∀ it ∈ (scan_todos (buildIndex Y files)).items,
      ∃ note j, lookup it.source_slug (buildIndex Y files).notes = some note ∧
        (splitlines note.body)[j]? = some it.raw_line ∧ it.line_no = j + 1 ∧
        skipMatch it.raw_line = false ∧
        ¬ (((splitlines note.body).take j).countP skipMatch % 2 = 1)) ∧
    scanBody (chars "n") (chars "```\nTK: hidden\n~~~\nTK: seen") =
      [⟨chars "n", 4, chars "seen", chars "TK: seen", false⟩] ∧
    scanBody (chars "n") (chars "```python\n- [ ] TK: hidden\n```") = [] := by
  refine ⟨?_, by decide, by decide⟩
  intro Y files it hit
  rw [scan_todos_items_eq] at hit
  obtain ⟨p, hp, hmem⟩ := List.mem_flatMap.mp hit
  obtain ⟨j, line, hget, hln, hsm, hflag, hsl⟩ :=
    scanGo_mem (splitlines p.2.body) false 1 hmem
  obtain ⟨hslug, hno, hraw, hres⟩ := scanLine_shape hsl
  refine ⟨p.2, j, ?_, ?_, by omega, ?_, ?_⟩
  · rw [hslug]
    exact lookup_eq_of_mem_nodup (buildNotes_keys_nodup Y files) hp
  · rw [hraw]; exact hget
  · rw [hraw]; exact hsm
  · intro hpar
    exact absurd (hflag.mpr hpar) (by simp)

/-- C6 witness: the `TK: seen` item after the tilde-closed backtick fence
arises from body line 4, which is not a marker line and has even marker
parity above it. -/
theorem code_fence_never_surfaced_witness :
    ∃ note j,
      lookup (chars "n") (buildIndex (fun _ => none)
        [(chars "n.md", chars "```\nTK: hidden\n~~~\nTK: seen")]).notes =
          some note ∧
      (splitlines note.body)[j]? = some (chars "TK: seen") ∧ (4 : Nat) = j + 1 ∧
      skipMatch (chars "TK: seen") = false ∧
      ¬ (((splitlines note.body).take j).countP skipMatch % 2 = 1) :=
  code_fence_never_surfaced.1 (fun _ => none)
    [(chars "n.md", chars "```\nTK: hidden\n~~~\nTK: seen")]
    ⟨chars "n", 4, chars "seen", chars "TK: seen", false⟩ (by decide)

/-- C7: an item produced from a non-code line on which neither the task
pattern nor the colon pattern matched (so the bare whole-word `TK` did)
has as description the line with every literal `TK` removed and
surrounding `-`, `:` and space characters trimmed (for lines whose
whitespace is plain spaces this is exactly one trimming pass), falling
back to the full trimmed line when the removal leaves nothing. -/
theorem bare_tk_description :
    (∀ Y files, ∀ it ∈ (scan_todos (buildIndex Y files)).items,
      taskMatch (pyStrip it.raw_line) = none →
      colonMatch (pyStrip it.raw_line) = none →
      bareSearch (pyStrip it.raw_line) = true ∧
      it.description = bareDesc (pyStrip it.raw_line)) ∧
    (∀ s, (∀ c ∈ s, isPySpace c → c = ' ') →
      bareDesc s =
        (if pyStripChars [' ', '-', ':'] (replaceTK s) = [] then s
         else pyStripChars [' ', '-', ':'] (replaceTK s))) ∧
    bareDesc (chars "note: add TK here") = chars "note: add  here" ∧
    bareDesc (chars "TK") = chars "TK" := by
  refine ⟨?_, fun s hs => bareDesc_space_only s hs, by decide, by decide⟩
  intro Y files it hit htask hcolon
  rw [scan_todos_items_eq] at hit
  obtain ⟨p, hp, hmem⟩ := List.mem_flatMap.mp hit
  obtain ⟨j, line, hget, hln, hsm, hflag, hsl⟩ :=
    scanGo_mem (splitlines p.2.body) false 1 hmem
  obtain ⟨hslug, hno, hraw, hres⟩ := scanLine_shape hsl
  rw [hraw] at htask hcolon ⊢
  simp only [scanLine, htask, hcolon] at hsl
  by_cases hb : bareSearch (pyStrip line)
  · rw [if_pos hb] at hsl
    cases hsl
    exact ⟨hb, rfl⟩
  · rw [if_neg hb] at hsl
    cases hsl

/-- C7 witness: the body line `"see TK here"` (bare form only) yields the
description `"see  here"`. -/
theorem bare_tk_description_witness :
    bareSearch (pyStrip (chars "see TK here")) = true ∧
    (⟨chars "n", 1, chars "see  here", chars "see TK here", false⟩
      : TodoItem).description = bareDesc (pyStrip (chars "see TK here")) :=
  bare_tk_description.1 (fun _ => none)
    [(chars "n.md", chars "see TK here")]
    ⟨chars "n", 1, chars "see  here", chars "see TK here", false⟩
    (by decide) (by decide) (by decide)

/-- C8: every tag returned by `parse_tags` is a maximal nonempty run of
word/digit/hyphen/slash characters preceded by a `#` whose preceding
character (when any) is not a backtick, word character, `#` or slash;
results are de-duplicated by first occurrence with order preserved; and
the text ``Use `#include` in C code.`` yields no tags at all. -/
theorem parse_tags_lexical :
    (∀ text t, t ∈ parse_tags text →
      ∃ pre post, text = pre ++ '#' :: (t ++ post) ∧ t ≠ [] ∧
        (∀ c ∈ t, tagChar c = true) ∧
        (∀ c r, post = c :: r → tagChar c = false) ∧
        (∀ c r, pre.reverse = c :: r → tagExcl c = false)) ∧
    (∀ text, (parse_tags text).Nodup ∧
      List.Sublist (parse_tags text) (tagGo none 0 text) ∧
      ∀ t ∈ tagGo none 0 text, t ∈ parse_tags text) ∧
    parse_tags (chars "Use `#include` in C code.") = [] ∧
    parse_tags (chars "see #alpha and #beta/x, #alpha again") =
      [chars "alpha", chars "beta/x"] := by
  refine ⟨?_, ?_, by decide, by decide⟩
  · intro text t ht
    have hscan : t ∈ tagGo none 0 text :=
      (dedupGo_sublist (tagGo none 0 text) []).subset ht
    obtain ⟨pre, post, heq, hne, hchars, hpost, _, hpre2⟩ :=
      tagGo_sound text none 0 hscan
    exact ⟨pre, post, heq, hne, hchars, hpost, hpre2⟩
  · intro text
    refine ⟨(dedupGo_nodup (tagGo none 0 text) []).1,
      dedupGo_sublist (tagGo none 0 text) [], ?_⟩
    intro t ht
    rcases mem_dedupGo (tagGo none 0 text) [] t ht with hs | hd
    · cases hs
    · exact hd

/-- C8 witness: the tag `"tag"` of `"x #tag y"` arises from a `#` whose
predecessor is a space. -/
theorem parse_tags_lexical_witness :
    ∃ pre post, chars "x #tag y" = pre ++ '#' :: (chars "tag" ++ post) ∧
      chars "tag" ≠ [] ∧ (∀ c ∈ chars "tag", tagChar c = true) ∧
      (∀ c r, post = c :: r → tagChar c = false) ∧
      (∀ c r, pre.reverse = c :: r → tagExcl c = false) :=
  parse_tags_lexical.1 (chars "x #tag y") (chars "tag") (by decide)

/-- C4: `parse_frontmatter` is total (modelled exceptions are caught):
an input without the position-0 delimiter/block/delimiter shape is
returned as `({}, content)` unchanged, and a well-delimited input whose
metadata block fails to parse (`Y g = none`) degrades to an empty mapping
while the body is still returned with the delimited block stripped. -/
theorem parse_frontmatter_never_raises (Y : YamlParser) :
    (∀ content, ¬ HasFMShape content →
      parse_frontmatter Y content = ([], content)) ∧
    (∀ content g rest, frontmatterMatch content = some (g, rest) →
      Y g = none →
      parse_frontmatter Y content = ([], rest) ∧
      ∃ w₁ w₂, (∀ c ∈ w₁, IsWsChar c) ∧ (∀ c ∈ w₂, IsWsChar c) ∧
        content = chars "---" ++ w₁ ++ '\n' ::
          (g ++ '\n' :: (chars "---" ++ w₂ ++ '\n' :: rest))) := by
  constructor
  · intro content hshape
    cases hm : frontmatterMatch content with
    | none => simp [parse_frontmatter, hm]
    | some p =>
      exact absurd ((hasFMShape_iff content).mpr (by simp [hm])) hshape
  · intro content g rest hm hy
    refine ⟨by simp [parse_frontmatter, hm, hy], ?_⟩
    unfold frontmatterMatch at hm
    split at hm
    · next r =>
      cases hs : stripWsNl r with
      | none => rw [hs] at hm; exact absurd hm (by simp)
      | some r1 =>
        rw [hs] at hm
        obtain ⟨w₁, hw₁, heq₁⟩ := stripWsNl_sound hs
        obtain ⟨a, w₂, hg, hw₂, heq₂⟩ := fmFindClose_sound hm
        refine ⟨w₁, w₂, hw₁, hw₂, ?_⟩
        simp only [chars]
        show _ = '-' :: '-' :: '-' :: (w₁ ++ '\n' :: (g ++ '\n' ::
          ('-' :: '-' :: '-' :: (w₂ ++ '\n' :: rest))))
        rw [heq₁, heq₂]
        simp only [List.reverse_nil, List.nil_append] at hg
        rw [hg]
        simp [chars]
    · exact absurd hm (by simp)

/-- C4 witness: a plain document is returned unchanged; a document with
well-formed delimiters whose block the YAML parser rejects still has the
block stripped while the metadata degrades to `{}`. -/
theorem parse_frontmatter_never_raises_witness :
    parse_frontmatter (fun _ => none) (chars "no front matter here") =
      ([], chars "no front matter here") ∧
    parse_frontmatter (fun _ => none) (chars "---\nbad: [\n---\nBody") =
      ([], chars "Body") :=
  ⟨(parse_frontmatter_never_raises (fun _ => none)).1 _
      (by rw [hasFMShape_iff]; decide),
   ((parse_frontmatter_never_raises (fun _ => none)).2 _ (chars "bad: [")
      (chars "Body") (by decide) rfl).1⟩

/-- C10: when the source file exists and `line_no` is within its line
count, `resolve_todo` writes the file back (the stored line with its
first unchecked checkbox replaced) and sets `resolved := true`, even when
that line has no unchecked checkbox — the content is then written back
unchanged; an out-of-range `line_no` performs no write and leaves
`resolved` untouched. -/
theorem resolve_todo_rewrites :
    (∀ c (item : TodoItem), 1 ≤ item.line_no →
      item.line_no ≤ (splitKeep c).length →
      (resolve_todo (some c) item).item.resolved = true ∧
      (resolve_todo (some c) item).written =
        some (joinStr ((splitKeep c).set (item.line_no - 1)
          (subCheckbox ((splitKeep c).getD (item.line_no - 1) [])))) ∧
      (¬ HasCheckbox ((splitKeep c).getD (item.line_no - 1) []) →
        (resolve_todo (some c) item).written = some c)) ∧
    (∀ c (item : TodoItem),
      (splitKeep c).length < item.line_no ∨ item.line_no = 0 →
      (resolve_todo (some c) item).written = none ∧
      (resolve_todo (some c) item).item.resolved = item.resolved) := by
  constructor
  · intro c item h1 h2
    have hcond : (0 : Int) ≤ (item.line_no : Int) - 1 ∧
        (item.line_no : Int) - 1 < ((splitKeep c).length : Int) := by omega
    have htn : ((item.line_no : Int) - 1).toNat = item.line_no - 1 := by omega
    refine ⟨?_, ?_, ?_⟩
    · simp [resolve_todo, hcond.1, hcond.2]
    · simp [resolve_todo, hcond.1, hcond.2, htn]
    · intro hnc
      have hlt : item.line_no - 1 < (splitKeep c).length := by omega
      have hsub := subCheckbox_of_not_hasCheckbox _ hnc
      have hset := set_getD_self (splitKeep c) (item.line_no - 1) [] hlt
      simp only [List.getD_eq_getElem?_getD] at hsub hset
      simp [resolve_todo, hcond.1, hcond.2, htn, hsub, hset, joinStr_splitKeep]
  · intro c item h
    have hcond : ¬ (1 ≤ item.line_no ∧
        (item.line_no : Int) - 1 < ((splitKeep c).length : Int)) := by omega
    exact ⟨by simp [resolve_todo, hcond], by simp [resolve_todo, hcond]⟩

/-- C10 witness: a two-line file; line 1 (`"hello\n"`, no checkbox) is
"resolved", the file content is rewritten unchanged; line 5 is out of
range and performs no write. -/
theorem resolve_todo_rewrites_witness :
    (resolve_todo (some (chars "hello\nworld\n"))
      ⟨chars "n", 1, chars "d", chars "r", false⟩).item.resolved = true ∧
    (resolve_todo (some (chars "hello\nworld\n"))
      ⟨chars "n", 1, chars "d", chars "r", false⟩).written =
        some (chars "hello\nworld\n") ∧
    (resolve_todo (some (chars "hello\nworld\n"))
      ⟨chars "n", 5, chars "d", chars "r", false⟩).written = none :=
  ⟨(resolve_todo_rewrites.1 (chars "hello\nworld\n")
      ⟨chars "n", 1, chars "d", chars "r", false⟩ (by decide) (by decide)).1,
   (resolve_todo_rewrites.1 (chars "hello\nworld\n")
      ⟨chars "n", 1, chars "d", chars "r", false⟩ (by decide) (by decide)).2.2
     (not_hasCheckbox_of_no_bracket _ (by decide)),
   (resolve_todo_rewrites.2 (chars "hello\nworld\n")
      ⟨chars "n", 5, chars "d", chars "r", false⟩ (Or.inl (by decide))).1⟩

end Vault

